import Mathlib

/-!
# Verification of the process-exporter rule-matching core

Shallow embedding of `src/config/config.go` (package `config` of
jinnzy/process-exporter): matchers over process attributes, first-match
rule evaluation, name-template rendering, static-name extraction from raw
rule definitions, and rule compilation from the decoded YAML document.

Conventions of the embedding:
* Go maps used as string-keyed dictionaries are modelled as functions
  `String → Option String` (`CapMap`); insertion overwrites, lookup is
  function application.  Go map iteration order is unspecified; where the
  source iterates a decoded YAML mapping we fix the entry order of the
  decoded association list (YAML mappings have unique keys, so the claims
  below do not depend on the order).
* The regular-expression engine and the template engine are external
  capabilities (the spec treats them as such); a `Regex` packages the
  engine's `FindStringSubmatch` and `SubexpNames` together with the two
  contracts the Go `regexp` package documents, and templates are rendering
  functions `TemplateParams → String`.  Compilation/parsing capabilities
  are passed to `getMatchNamer`/`GetConfig` as parameters.
* The mutable `captures` field of `cmdlineMatcher` is threaded explicitly:
  stateful `Match`/`MatchAndName` return the updated matcher state.
* Go `nil` slices returned by `getProcessNames` are the empty list;
  fallible compilation returns `Except`.
-/

namespace ProcessExporter

/-- Process attributes (`common.ProcAttributes`): name (comm), argv,
user, pid, start time (opaque tag). -/
structure ProcAttributes where
  Name : String
  Cmdline : List String
  Username : String
  PID : Int
  StartTime : Int
  deriving Repr

/-- A Go `map[string]string`, as a lookup function. -/
def CapMap : Type := String → Option String

/-- The empty map (`make(map[string]string)`). -/
def capEmpty : CapMap := fun _ => none

/-- `m[k] = v` on a Go string map: overwrite at `k`. -/
def capInsert (k v : String) (m : CapMap) : CapMap :=
  fun k' => if k' = k then some v else m k'

/-- `for i, name := range names { m[name] = vals[i] }` with
`len names = len vals`: sequential overwriting writes. -/
def capInsertZip (names vals : List String) (m : CapMap) : CapMap :=
  (names.zip vals).foldl (fun acc kv => capInsert kv.1 kv.2 acc) m

/-! ## filepath.Base (Go standard library, unix rules) -/

/-- Strip trailing `/` characters (`for len(path) > 0 && IsPathSeparator(last)`). -/
def dropTrailingSep (cs : List Char) : List Char :=
  (cs.reverse.dropWhile (fun c => c = '/')).reverse

/-- The suffix of `cs` after its last `/` (all of `cs` if none). -/
def lastComponent (cs : List Char) : List Char :=
  cs.foldl (fun acc c => if c = '/' then [] else acc ++ [c]) []

/-- Go `filepath.Base` on unix: empty path gives `"."`; trailing
separators are stripped; the last path element is returned; a path of
only separators gives `"/"`. -/
def filepathBase (path : String) : String :=
  if path = "" then "."
  else
    let cs := dropTrailingSep path.data
    let last := lastComponent cs
    if last = [] then "/" else String.mk last

/-- Go `strings.Contains(s, "/")`. -/
def containsSlash (s : String) : Bool :=
  s.data.any (fun c => c = '/')

/-- Go `strings.Join(cmdline, " ")`. -/
def joinCmdline (cmdline : List String) : String :=
  String.intercalate " " cmdline

/-! ## The regex capability

`Regex` packages the two methods of a compiled Go `*regexp.Regexp` that
the source uses, with the contracts documented by the `regexp` package:
`SubexpNames` has length `NumSubexp()+1` (so at least 1, `names[0] = ""`),
and `FindStringSubmatch` returns either `nil` (no match, modelled `none`)
or a slice of exactly `len(SubexpNames())` entries. -/
structure Regex where
  findStringSubmatch : String → Option (List String)
  subexpNames : List String
  names_pos : 0 < subexpNames.length
  match_len : ∀ s l, findStringSubmatch s = some l → l.length = subexpNames.length

/-- `regex matches s`: `FindStringSubmatch` found a (leftmost) match. -/
def Regex.matches' (r : Regex) (s : String) : Bool :=
  (r.findStringSubmatch s).isSome

/-! ## Matchers -/

/-- The three leaf matcher variants of the source.  `comm` holds the key
set of `commMatcher.comms`; `exe` holds the basename→path map of
`exeMatcher.exes`; `cmdline` holds `cmdlineMatcher`'s regex list and its
mutable `captures` map (`none` is a nil Go map). -/
inductive Matcher where
  | comm (comms : List String)
  | exe (exes : CapMap)
  | cmdline (regexes : List Regex) (captures : Option CapMap)

/-- `commMatcher.Match`: membership of `nacl.Name` in the comm set. -/
def commMatch (comms : List String) (nacl : ProcAttributes) : Bool :=
  comms.contains nacl.Name

/-- `exeMatcher.Match`: require non-empty Cmdline, look up the basename of
`Cmdline[0]`; an empty configured path accepts any location, a full path
must equal `Cmdline[0]` exactly. -/
def exeMatch (exes : CapMap) (nacl : ProcAttributes) : Bool :=
  match nacl.Cmdline with
  | [] => false
  | c0 :: _ =>
    let thisbase := filepathBase c0
    match exes thisbase with
    | none => false
    | some fqpath => if fqpath = "" then true else fqpath = c0

/-- `cmdlineMatcher.Match`, with the mutable `captures` map threaded.
Per regex: run `FindStringSubmatch` on the joined cmdline; fail if the
captures map is nil; fail if `len(SubexpNames()) != len(captures)` (a Go
nil result has length 0); otherwise write `captures[name] = submatch`
for every subexpression name and continue. -/
def cmdlineMatchGo (rs : List Regex) (captures : Option CapMap) (joined : String) :
    Bool × Option CapMap :=
  match rs with
  | [] => (true, captures)
  | r :: rest =>
    let caps := r.findStringSubmatch joined
    match captures with
    | none => (false, none)
    | some m =>
      if r.subexpNames.length ≠ (caps.getD []).length then (false, some m)
      else cmdlineMatchGo rest (some (capInsertZip r.subexpNames (caps.getD []) m)) joined

/-- Dispatch `Match` over the matcher variants, returning the updated
matcher (only `cmdline` carries state). -/
def matcherMatch (m : Matcher) (nacl : ProcAttributes) : Bool × Matcher :=
  match m with
  | .comm comms => (commMatch comms nacl, .comm comms)
  | .exe exes => (exeMatch exes nacl, .exe exes)
  | .cmdline rs caps =>
    let r := cmdlineMatchGo rs caps (joinCmdline nacl.Cmdline)
    (r.1, .cmdline rs r.2)

/-- `andMatcher.Match`: evaluate sub-matchers in order, stopping at the
first failure; matchers after the failure are not evaluated (their state
is untouched). -/
def andMatch (ms : List Matcher) (nacl : ProcAttributes) : Bool × List Matcher :=
  match ms with
  | [] => (true, [])
  | m :: rest =>
    let r := matcherMatch m nacl
    if r.1 then
      let rr := andMatch rest nacl
      (rr.1, r.2 :: rr.2)
    else (false, r.2 :: rest)

/-! ## Templates and the matchNamer -/

/-- The parameter record handed to `template.Execute`. -/
structure TemplateParams where
  Comm : String
  ExeBase : String
  ExeFull : String
  Username : String
  PID : Int
  StartTime : Int
  Matches : CapMap

/-- A compiled template is its rendering function (the template engine is
an external capability). -/
def Template : Type := TemplateParams → String

/-- A compiled rule: the embedded `andMatcher` plus the compiled name
template (`matchNamer`). -/
structure MatchNamer where
  matchers : List Matcher
  template : Template

/-- The capture-collection loop of `matchNamer.MatchAndName`: for every
`cmdlineMatcher` in the andMatcher, copy each of its capture entries into
`matches` (keys present in the matcher's map overwrite). -/
def collectCaptures (ms : List Matcher) : CapMap :=
  ms.foldl
    (fun acc m =>
      match m with
      | .cmdline _ (some caps) => fun k => (caps k).orElse (fun _ => acc k)
      | _ => acc)
    capEmpty

/-- Lines 115–119 of the source: `exebase, exefull := nacl.Name, nacl.Name;
if len(nacl.Cmdline) > 0 { exefull = nacl.Cmdline[0]; exebase = Base(exefull) }`.
Returns `(exebase, exefull)`. -/
def exeDerive (nacl : ProcAttributes) : String × String :=
  match nacl.Cmdline with
  | [] => (nacl.Name, nacl.Name)
  | c0 :: _ => (filepathBase c0, c0)

/-- `matchNamer.MatchAndName`: match, then collect captures, derive
ExeBase/ExeFull, and render the template.  The updated matcher state is
returned alongside the result. -/
def matchAndName (mn : MatchNamer) (nacl : ProcAttributes) :
    (Bool × String) × MatchNamer :=
  let r := andMatch mn.matchers nacl
  if r.1 then
    let mtchs := collectCaptures r.2
    let eb := exeDerive nacl
    (((true, mn.template
        { Comm := nacl.Name, ExeBase := eb.1, ExeFull := eb.2,
          Matches := mtchs, Username := nacl.Username,
          PID := nacl.PID, StartTime := nacl.StartTime })),
     { mn with matchers := r.2 })
  else ((false, ""), { mn with matchers := r.2 })

/-- `FirstMatcher.MatchAndName`: evaluate rules in declared order and
return the first successful result, `(false, "")` if none matches. -/
def firstMatchAndName (f : List MatchNamer) (nacl : ProcAttributes) :
    (Bool × String) × List MatchNamer :=
  match f with
  | [] => ((false, ""), [])
  | mn :: rest =>
    let r := matchAndName mn nacl
    if r.1.1 then (r.1, r.2 :: rest)
    else
      let rr := firstMatchAndName rest nacl
      (rr.1, r.2 :: rr.2)

/-! ## The decoded YAML document model

`yaml.Unmarshal` (external) produces `interface{}` trees: strings, bools,
integers, lists and maps.  A Go `map[interface{}]interface{}` is the
association list of its entries; iteration follows entry order. -/

inductive YamlValue where
  | str (s : String)
  | bool (b : Bool)
  | int (n : Int)
  | list (l : List YamlValue)
  | map (m : List (YamlValue × YamlValue))

/-- Rendering of a yaml value for `%v`-style error text (approximate:
the messages whose text the claims rely on contain no dynamic values). -/
def yamlShow : YamlValue → String
  | .str s => s
  | .bool b => if b then "true" else "false"
  | .int n => toString n
  | .list l => "[" ++ String.intercalate " " (l.attach.map (fun v => yamlShow v.1)) ++ "]"
  | .map _ => "map[...]"
  decreasing_by
    simp_wf
    have := List.sizeOf_lt_of_mem v.2
    omega

/-! ## getProcessNames (static-name extraction) -/

/-- First loop of `getProcessNames`: scan for `report_missing`.
`none` models `return nil` (non-string key, or non-bool value);
`some flag` models finishing with `reportMissingFlag` = `flag`
(a `true` value breaks out of the loop with the flag set; a `false`
value sets the flag and keeps scanning). -/
def scanReportMissing : List (YamlValue × YamlValue) → Option Bool
  | [] => some false
  | (k, v) :: rest =>
    match k with
    | .str key =>
      if key = "report_missing" then
        match v with
        | .bool value =>
          if value then some true
          else (scanReportMissing rest).map (fun _ => true)
        | _ => none
      else scanReportMissing rest
    | _ => none

/-- Second loop of `getProcessNames`: scan for a `name` key.
`Except.error ()` models `return nil` (non-string key or non-string
`name` value); `.ok (some s)` models `return [s]`. -/
def scanName : List (YamlValue × YamlValue) → Except Unit (Option String)
  | [] => .ok none
  | (k, v) :: rest =>
    match k with
    | .str key =>
      if key = "name" then
        match v with
        | .str s => .ok (some s)
        | _ => .error ()
      else scanName rest
    | _ => .error ()

/-- Decode a yaml list whose elements must all be strings
(`v.([]interface{})` plus per-element `rawValue.(string)`). -/
def strListOf : YamlValue → Option (List String)
  | .list l =>
    l.foldr
      (fun v acc =>
        match v, acc with
        | .str s, some ss => some (s :: ss)
        | _, _ => none)
      (some [])
  | _ => none

/-- The name an `exe` entry contributes: its basename when it contains a
`/`, the entry itself otherwise. -/
def exeEntryName (value : String) : String :=
  if containsSlash value then filepathBase value else value

/-- Third loop of `getProcessNames`: collect `comm` values verbatim and
`exe` values through `exeEntryName`, in entry order; `none` models
`return nil` on any type-assertion failure. -/
def scanCommExe : List (YamlValue × YamlValue) → Option (List String)
  | [] => some []
  | (k, v) :: rest =>
    match k with
    | .str key =>
      if key = "comm" then
        match strListOf v with
        | none => none
        | some vs => (scanCommExe rest).map (fun ns => vs ++ ns)
      else if key = "exe" then
        match strListOf v with
        | none => none
        | some vs => (scanCommExe rest).map (fun ns => vs.map exeEntryName ++ ns)
      else scanCommExe rest
    | _ => none

/-- `getProcessNames`: extract the static names of one raw rule
definition (a Go `nil` result is the empty list). -/
def getProcessNames (procname : YamlValue) : List String :=
  match procname with
  | .map nm =>
    match scanReportMissing nm with
    | none => []
    | some false => []
    | some true =>
      match scanName nm with
      | .error _ => []
      | .ok (some s) => [s]
      | .ok none => (scanCommExe nm).getD []
  | _ => []

/-! ## getMatchNamer (rule compilation) -/

/-- Structured compile errors; `render` gives the Go error text. -/
inductive CfgError where
  | notAMap
  | nonStringKey (shown : String)
  | nonStringValue (shown key : String)
  | nonStringArray (shown key : String)
  | nonStringInList (shown : String) (idx : Nat) (key : String)
  | badRegex (pattern msg : String)
  | noMatchers
  | badTemplate (tmpl msg : String)
  | noProcessNames
  | processNamesNotList
  | entry (idx : Nat) (err : CfgError)
  deriving BEq, DecidableEq

/-- The Go error strings produced by `fmt.Errorf` in the source. -/
def CfgError.render : CfgError → String
  | .notAMap => "not a map"
  | .nonStringKey shown => "non-string key " ++ shown
  | .nonStringValue shown key => "non-string value " ++ shown ++ " for key \"" ++ key ++ "\""
  | .nonStringArray shown key => "non-string array value " ++ shown ++ " for key \"" ++ key ++ "\""
  | .nonStringInList shown idx key =>
      "non-string value " ++ shown ++ " in list[" ++ toString idx ++ "] for key \"" ++ key ++ "\""
  | .badRegex pattern msg => "bad cmdline regex \"" ++ pattern ++ "\": " ++ msg
  | .noMatchers => "no matchers provided"
  | .badTemplate tmpl msg => "bad name template \"" ++ tmpl ++ "\": " ++ msg
  | .noProcessNames => "error parsing YAML config: no top-level 'process_names' key"
  | .processNamesNotList => "error parsing YAML config: 'process_names' is not a list"
  | .entry idx err => "unable to parse process_name entry " ++ toString idx ++ ": " ++ err.render

/-- Association-list lookup for the Go string map `smap`. -/
def smapLookup (key : String) (m : List (String × List String)) : Option (List String) :=
  (m.find? (fun p => p.1 = key)).map (fun p => p.2)

/-- `smap[key] = strs` (map overwrite). -/
def smapInsert (key : String) (strs : List String) (m : List (String × List String)) :
    List (String × List String) :=
  (key, strs) :: m.filter (fun p => p.1 ≠ key)

/-- Decode a list value whose elements must all be strings, reporting the
index of the first offender (loop of lines 347–354). -/
def decodeStrList (key : String) (vals : List YamlValue) (idx : Nat) (shown : String) :
    Except CfgError (List String) :=
  match vals with
  | [] => .ok []
  | .str s :: rest => (decodeStrList key rest (idx + 1) shown).map (fun ss => s :: ss)
  | _ :: _ => .error (.nonStringInList shown idx key)

/-- First loop of `getMatchNamer` (lines 328–357): build `smap` and
`nametmpl` from the definition's entries. -/
def buildSmap (entries : List (YamlValue × YamlValue))
    (smap : List (String × List String)) (nametmpl : String) :
    Except CfgError (List (String × List String) × String) :=
  match entries with
  | [] => .ok (smap, nametmpl)
  | (k, v) :: rest =>
    match k with
    | .str key =>
      if key = "name" then
        match v with
        | .str value => buildSmap rest smap value
        | _ => .error (.nonStringValue (yamlShow v) key)
      else if key = "report_missing" then
        buildSmap rest smap nametmpl
      else
        match v with
        | .list vals =>
          match decodeStrList key vals 0 (yamlShow v) with
          | .error e => .error e
          | .ok strs => buildSmap rest (smapInsert key strs smap) nametmpl
        | _ => .error (.nonStringArray (yamlShow v) key)
    | _ => .error (.nonStringKey (yamlShow k))

/-- `exes` map construction (lines 367–375): entries with a `/` register
basename → full path, bare names register name → `""`. -/
def buildExes (es : List String) : CapMap :=
  es.foldl
    (fun m e =>
      if containsSlash e then capInsert (filepathBase e) e m
      else capInsert e "" m)
    capEmpty

/-- Regex list compilation (lines 378–391). -/
def compileRegexes (compile : String → Except String Regex) (cs : List String) :
    Except CfgError (List Regex) :=
  match cs with
  | [] => .ok []
  | c :: rest =>
    match compile c with
    | .error msg => .error (.badRegex c msg)
    | .ok r => (compileRegexes compile rest).map (fun rs => r :: rs)

/-- Lines 392–405 of the source: reject an empty matcher list, apply the
default template, parse it, and assemble the `matchNamer`. -/
def finishMatchNamer (parseTmpl : String → Except String Template)
    (matchers : List Matcher) (nametmpl : String) : Except CfgError MatchNamer :=
  if matchers.isEmpty then .error .noMatchers
  else
    let nametmpl' := if nametmpl = "" then "{{.ExeBase}}" else nametmpl
    match parseTmpl nametmpl' with
    | .error msg => .error (.badTemplate nametmpl' msg)
    | .ok tmpl => .ok { matchers := matchers, template := tmpl }

/-- `getMatchNamer`: compile one raw rule definition into a `MatchNamer`.
`compile` and `parseTmpl` are the regex / template engine capabilities. -/
def getMatchNamer (compile : String → Except String Regex)
    (parseTmpl : String → Except String Template)
    (yamlmn : YamlValue) : Except CfgError MatchNamer :=
  match yamlmn with
  | .map nm =>
    match buildSmap nm [] "" with
    | .error e => .error e
    | .ok (smap, nametmpl) =>
      let matchers0 : List Matcher :=
        match smapLookup "comm" smap with
        | some comm => [.comm comm]
        | none => []
      let matchers1 : List Matcher :=
        match smapLookup "exe" smap with
        | some exe => matchers0 ++ [.exe (buildExes exe)]
        | none => matchers0
      match smapLookup "cmdline" smap with
      | some cmdline =>
        match compileRegexes compile cmdline with
        | .error e => .error e
        | .ok rs =>
          finishMatchNamer parseTmpl (matchers1 ++ [.cmdline rs (some capEmpty)]) nametmpl
      | none => finishMatchNamer parseTmpl matchers1 nametmpl
  | _ => .error .notAMap

/-- The configuration: the ordered rule set. -/
structure Config where
  MatchNamers : List MatchNamer

/-- The per-entry loop of `GetConfig` (lines 305–315), threading the
entry index: compile each definition and extract its static names. -/
def getConfigLoop (compile : String → Except String Regex)
    (parseTmpl : String → Except String Template)
    (procnames : List YamlValue) (i : Nat) :
    Except CfgError (List MatchNamer × List String) :=
  match procnames with
  | [] => .ok ([], [])
  | procname :: rest =>
    match getMatchNamer compile parseTmpl procname with
    | .error e => .error (.entry i e)
    | .ok mn =>
      match getConfigLoop compile parseTmpl rest (i + 1) with
      | .error e => .error e
      | .ok (mns, names) => .ok (mn :: mns, getProcessNames procname ++ names)

/-- `GetConfig` after `yaml.Unmarshal` (the YAML decoder is an external
capability): `yamldata` is the decoded top-level string-keyed map.
Requires a `process_names` list and compiles every entry; the first
error aborts with the entry index and no configuration. -/
def GetConfig (compile : String → Except String Regex)
    (parseTmpl : String → Except String Template)
    (yamldata : List (String × YamlValue)) :
    Except CfgError (Config × List String) :=
  match (yamldata.find? (fun p => p.1 = "process_names")).map (fun p => p.2) with
  | none => .error .noProcessNames
  | some yamlProcnames =>
    match yamlProcnames with
    | .list procnames =>
      match getConfigLoop compile parseTmpl procnames 0 with
      | .error e => .error e
      | .ok (mns, names) => .ok ({ MatchNamers := mns }, names)
    | _ => .error .processNamesNotList

/-! ## Capture-map lemmas -/

/-- All subexpression names a cmdline matcher can ever write. -/
def allNames (rs : List Regex) : List String :=
  rs.flatMap (fun r => r.subexpNames)

theorem capInsert_apply (k v : String) (m : CapMap) (k' : String) :
    capInsert k v m k' = if k' = k then some v else m k' := rfl

theorem mem_allNames_cons {k : String} {r : Regex} {rest : List Regex} :
    k ∈ allNames (r :: rest) ↔ k ∈ r.subexpNames ∨ k ∈ allNames rest := by
  simp [allNames]

theorem not_mem_allNames_nil {k : String} : k ∉ allNames ([] : List Regex) := by
  simp [allNames]

/-- A sequence of map writes reads back independently of the starting map
on written keys, and as the starting map elsewhere. -/
theorem foldl_capInsert_apply (ps : List (String × String)) (m : CapMap) (k : String) :
    (ps.foldl (fun acc kv => capInsert kv.1 kv.2 acc) m) k =
      if k ∈ ps.map Prod.fst
      then (ps.foldl (fun acc kv => capInsert kv.1 kv.2 acc) capEmpty) k
      else m k := by
  induction ps generalizing m with
  | nil => simp
  | cons p rest ih =>
    simp only [List.foldl_cons, List.map_cons, List.mem_cons]
    rw [ih (capInsert p.1 p.2 m), ih (capInsert p.1 p.2 capEmpty)]
    by_cases hrest : k ∈ rest.map Prod.fst
    · simp [hrest]
    · by_cases hk : k = p.1
      · simp [hrest, hk, capInsert_apply]
      · simp [hrest, hk, capInsert_apply]

theorem capInsertZip_apply (names vals : List String) (m : CapMap) (k : String) :
    capInsertZip names vals m k =
      if k ∈ (names.zip vals).map Prod.fst
      then capInsertZip names vals capEmpty k
      else m k :=
  foldl_capInsert_apply (names.zip vals) m k

/-! ## cmdlineMatcher lemmas -/

/-- A failed `FindStringSubmatch` (the Go `nil`, length 0) always trips
the length check, because `SubexpNames()` has length at least 1. -/
theorem lengths_ne_of_no_match (r : Regex) :
    r.subexpNames.length ≠ ((none : Option (List String)).getD []).length := by
  have := r.names_pos
  simp only [Option.getD_none, List.length_nil]
  omega

/-- A successful `FindStringSubmatch` always passes the length check. -/
theorem lengths_eq_of_match (r : Regex) {s : String} {l : List String}
    (hf : r.findStringSubmatch s = some l) :
    ¬ r.subexpNames.length ≠ ((some l).getD []).length := by
  have := r.match_len s l hf
  simp only [Option.getD_some]
  omega

theorem cmdlineMatchGo_cons_none (r : Regex) (rest : List Regex) (m : CapMap)
    (s : String) (hf : r.findStringSubmatch s = none) :
    cmdlineMatchGo (r :: rest) (some m) s = (false, some m) := by
  simp only [cmdlineMatchGo, hf]
  rw [if_pos (lengths_ne_of_no_match r)]

theorem cmdlineMatchGo_cons_some (r : Regex) (rest : List Regex) (m : CapMap)
    (s : String) (l : List String) (hf : r.findStringSubmatch s = some l) :
    cmdlineMatchGo (r :: rest) (some m) s =
      cmdlineMatchGo rest (some (capInsertZip r.subexpNames l m)) s := by
  simp only [cmdlineMatchGo, hf]
  rw [if_neg (lengths_eq_of_match r hf)]
  simp

/-- With a non-nil captures map, `cmdlineMatcher.Match` succeeds exactly
when every regex matches the joined command line (AND semantics): a
failed `FindStringSubmatch` is `nil`, whose length 0 can never equal
`len(SubexpNames()) ≥ 1`. -/
theorem cmdlineMatchGo_fst (rs : List Regex) (m : CapMap) (s : String) :
    (cmdlineMatchGo rs (some m) s).1 = rs.all (fun r => r.matches' s) := by
  induction rs generalizing m with
  | nil => rfl
  | cons r rest ih =>
    rw [List.all_cons]
    cases hf : r.findStringSubmatch s with
    | none => rw [cmdlineMatchGo_cons_none r rest m s hf]; simp [Regex.matches', hf]
    | some l =>
      rw [cmdlineMatchGo_cons_some r rest m s l hf]
      simp [Regex.matches', hf, ih]

/-- With a non-nil captures map the result map is also non-nil, and keys
outside `allNames` are never touched. -/
theorem cmdlineMatchGo_offNames (rs : List Regex) (s : String) (m : CapMap) :
    ∃ m'', (cmdlineMatchGo rs (some m) s).2 = some m'' ∧
      ∀ k, k ∉ allNames rs → m'' k = m k := by
  induction rs generalizing m with
  | nil => exact ⟨m, rfl, fun _ _ => rfl⟩
  | cons r rest ih =>
    cases hf : r.findStringSubmatch s with
    | none => exact ⟨m, by rw [cmdlineMatchGo_cons_none r rest m s hf], fun _ _ => rfl⟩
    | some l =>
      rw [cmdlineMatchGo_cons_some r rest m s l hf]
      have hlen : l.length = r.subexpNames.length := r.match_len s l hf
      obtain ⟨m'', hm'', hoff⟩ := ih (capInsertZip r.subexpNames l m)
      refine ⟨m'', hm'', fun k hk => ?_⟩
      rw [mem_allNames_cons] at hk
      push_neg at hk
      rw [hoff k hk.2, capInsertZip_apply]
      have hnot : k ∉ (r.subexpNames.zip l).map Prod.fst := by
        rw [List.map_fst_zip r.subexpNames l (le_of_eq hlen.symm)]
        exact hk.1
      simp [hnot]

/-- Two starting capture maps that agree outside `allNames` produce the
same match result, and — when the matcher succeeds — the same final
captures map. -/
theorem cmdlineMatchGo_agree (rs : List Regex) (s : String) (m m' : CapMap)
    (hagree : ∀ k, k ∉ allNames rs → m k = m' k) :
    (cmdlineMatchGo rs (some m) s).1 = (cmdlineMatchGo rs (some m') s).1 ∧
    ((cmdlineMatchGo rs (some m) s).1 = true →
      (cmdlineMatchGo rs (some m) s).2 = (cmdlineMatchGo rs (some m') s).2) := by
  induction rs generalizing m m' with
  | nil =>
    refine ⟨rfl, fun _ => ?_⟩
    simp only [cmdlineMatchGo]
    congr 1
    funext k
    exact hagree k not_mem_allNames_nil
  | cons r rest ih =>
    cases hf : r.findStringSubmatch s with
    | none =>
      rw [cmdlineMatchGo_cons_none r rest m s hf, cmdlineMatchGo_cons_none r rest m' s hf]
      exact ⟨rfl, fun h => absurd h (by simp)⟩
    | some l =>
      rw [cmdlineMatchGo_cons_some r rest m s l hf, cmdlineMatchGo_cons_some r rest m' s l hf]
      have hlen : l.length = r.subexpNames.length := r.match_len s l hf
      apply ih
      intro k hk
      rw [capInsertZip_apply r.subexpNames l m k, capInsertZip_apply r.subexpNames l m' k]
      by_cases hmem : k ∈ (r.subexpNames.zip l).map Prod.fst
      · simp [hmem]
      · have hk_r : k ∉ r.subexpNames := by
          intro h
          apply hmem
          rw [List.map_fst_zip r.subexpNames l (le_of_eq hlen.symm)]
          exact h
        have hk_all : k ∉ allNames (r :: rest) := by
          rw [mem_allNames_cons]
          push_neg
          exact ⟨hk_r, hk⟩
        simp only [hmem, ite_false, if_neg, not_false_iff]
        exact hagree k hk_all

/-- On success, the final captures map is the fold of the per-regex
writes over the starting map. -/
theorem cmdlineMatchGo_snd_of_all (rs : List Regex) (s : String) (m : CapMap)
    (hall : rs.all (fun r => r.matches' s) = true) :
    (cmdlineMatchGo rs (some m) s).2 =
      some (rs.foldl
        (fun acc r => capInsertZip r.subexpNames ((r.findStringSubmatch s).getD []) acc)
        m) := by
  induction rs generalizing m with
  | nil => rfl
  | cons r rest ih =>
    rw [List.all_cons] at hall
    obtain ⟨hr, hrest⟩ := Bool.and_eq_true_iff.mp hall
    obtain ⟨l, hl⟩ := Option.isSome_iff_exists.mp hr
    rw [cmdlineMatchGo_cons_some r rest m s l hl]
    simp only [List.foldl_cons, hl, Option.getD_some]
    exact ih _ hrest

/-- The capture map a single successful match attempt produces when it
starts from a fresh (empty) map — the spec's per-attempt CaptureMap. -/
def specFreshCaps (rs : List Regex) (s : String) : CapMap :=
  rs.foldl
    (fun acc r => capInsertZip r.subexpNames ((r.findStringSubmatch s).getD []) acc)
    capEmpty

/-- A junk-free starting map (no keys outside `allNames`) produces, on
success, exactly the fresh per-attempt capture map: every stale value is
overwritten. -/
theorem cmdlineMatchGo_fresh (rs : List Regex) (s : String) (m : CapMap)
    (hjf : ∀ k, k ∉ allNames rs → m k = none)
    (hall : rs.all (fun r => r.matches' s) = true) :
    (cmdlineMatchGo rs (some m) s).2 = some (specFreshCaps rs s) := by
  have hagree := cmdlineMatchGo_agree rs s m capEmpty (fun k hk => hjf k hk)
  have hsucc : (cmdlineMatchGo rs (some m) s).1 = true := by
    rw [cmdlineMatchGo_fst]; exact hall
  rw [hagree.2 hsucc]
  exact cmdlineMatchGo_snd_of_all rs s capEmpty hall

/-! ## Invariants over matcher state

`JunkFreeM` is the reachability invariant of a compiled matcher: the
cmdline captures map is non-nil (it is created with `make`) and holds no
key outside the subexpression names of its own regexes (the only keys the
code ever writes).  `skelM` erases the mutable captures content. -/

def JunkFreeM : Matcher → Prop
  | .cmdline rs caps => ∃ m, caps = some m ∧ ∀ k, k ∉ allNames rs → m k = none
  | _ => True

/-- The immutable part of a matcher. -/
def skelM : Matcher → Matcher
  | .cmdline rs _ => .cmdline rs none
  | m => m

/-- One `Match` call never changes the immutable part. -/
theorem skelM_matcherMatch (m : Matcher) (a : ProcAttributes) :
    skelM (matcherMatch m a).2 = skelM m := by
  cases m with
  | comm comms => rfl
  | exe exes => rfl
  | cmdline rs caps => simp [matcherMatch, skelM]

/-- One `Match` call preserves junk-freedom. -/
theorem junkFree_matcherMatch (m : Matcher) (a : ProcAttributes)
    (h : JunkFreeM m) : JunkFreeM (matcherMatch m a).2 := by
  cases m with
  | comm comms => trivial
  | exe exes => trivial
  | cmdline rs caps =>
    obtain ⟨mm, hcaps, hjf⟩ := h
    subst hcaps
    obtain ⟨m'', hm'', hoff⟩ := cmdlineMatchGo_offNames rs (joinCmdline a.Cmdline) mm
    exact ⟨m'', by simpa [matcherMatch] using hm'',
      fun k hk => by rw [hoff k hk]; exact hjf k hk⟩

/-- Similar matchers: same immutable part, both junk-free. -/
def SimM (m₁ m₂ : Matcher) : Prop :=
  skelM m₁ = skelM m₂ ∧ JunkFreeM m₁ ∧ JunkFreeM m₂

/-- Similar matchers give the same match verdict, and on success end in
literally equal states. -/
theorem matcherMatch_sim (m₁ m₂ : Matcher) (a : ProcAttributes)
    (hsim : SimM m₁ m₂) :
    (matcherMatch m₁ a).1 = (matcherMatch m₂ a).1 ∧
    ((matcherMatch m₁ a).1 = true → (matcherMatch m₁ a).2 = (matcherMatch m₂ a).2) ∧
    SimM (matcherMatch m₁ a).2 (matcherMatch m₂ a).2 := by
  obtain ⟨hskel, hjf₁, hjf₂⟩ := hsim
  have hsim' : SimM (matcherMatch m₁ a).2 (matcherMatch m₂ a).2 := by
    refine ⟨?_, junkFree_matcherMatch m₁ a hjf₁, junkFree_matcherMatch m₂ a hjf₂⟩
    rw [skelM_matcherMatch, skelM_matcherMatch]
    exact hskel
  cases m₁ with
  | comm comms =>
    cases m₂ with
    | comm comms₂ =>
      obtain rfl : comms = comms₂ := by simpa [skelM, Matcher.comm.injEq] using hskel
      exact ⟨rfl, fun _ => rfl, hsim'⟩
    | exe e => simp [skelM] at hskel
    | cmdline rs c => simp [skelM] at hskel
  | exe exes =>
    cases m₂ with
    | comm c => simp [skelM] at hskel
    | exe exes₂ =>
      obtain rfl : exes = exes₂ := by simpa [skelM, Matcher.exe.injEq] using hskel
      exact ⟨rfl, fun _ => rfl, hsim'⟩
    | cmdline rs c => simp [skelM] at hskel
  | cmdline rs caps =>
    cases m₂ with
    | comm c => simp [skelM] at hskel
    | exe e => simp [skelM] at hskel
    | cmdline rs₂ caps₂ =>
      obtain rfl : rs = rs₂ := by simpa [skelM, Matcher.cmdline.injEq] using hskel
      obtain ⟨mm₁, rfl, hj₁⟩ := hjf₁
      obtain ⟨mm₂, rfl, hj₂⟩ := hjf₂
      have hagree := cmdlineMatchGo_agree rs (joinCmdline a.Cmdline) mm₁ mm₂
        (fun k hk => by rw [hj₁ k hk, hj₂ k hk])
      refine ⟨by simpa [matcherMatch] using hagree.1, ?_, hsim'⟩
      intro htrue
      have := hagree.2 (by simpa [matcherMatch] using htrue)
      simp only [matcherMatch]
      rw [this]

/-! ## Lifting to andMatcher, matchNamer and FirstMatcher -/

/-- Similar matcher lists, pointwise. -/
def SimL (l₁ l₂ : List Matcher) : Prop := List.Forall₂ SimM l₁ l₂

/-- Similar rules: equal templates, similar matcher lists. -/
def SimN (n₁ n₂ : MatchNamer) : Prop :=
  n₁.template = n₂.template ∧ SimL n₁.matchers n₂.matchers

/-- Similar rule sets, pointwise. -/
def SimF (f₁ f₂ : List MatchNamer) : Prop := List.Forall₂ SimN f₁ f₂

/-- Similar matcher lists give the same `andMatcher.Match` verdict, end
in equal states on success, and stay similar. -/
theorem andMatch_sim (ms₁ ms₂ : List Matcher) (a : ProcAttributes)
    (hsim : SimL ms₁ ms₂) :
    (andMatch ms₁ a).1 = (andMatch ms₂ a).1 ∧
    ((andMatch ms₁ a).1 = true → (andMatch ms₁ a).2 = (andMatch ms₂ a).2) ∧
    SimL (andMatch ms₁ a).2 (andMatch ms₂ a).2 := by
  induction hsim with
  | nil => exact ⟨rfl, fun _ => rfl, List.Forall₂.nil⟩
  | cons hm hrest ih =>
    rename_i m₁ m₂ rest₁ rest₂
    obtain ⟨hfst, hsucc, hsim'⟩ := matcherMatch_sim m₁ m₂ a hm
    simp only [andMatch]
    rw [← hfst]
    by_cases hb : (matcherMatch m₁ a).1 = true
    · rw [if_pos hb, if_pos hb]
      obtain ⟨ihfst, ihsucc, ihsim⟩ := ih
      refine ⟨ihfst, ?_, List.Forall₂.cons hsim' ihsim⟩
      intro h
      rw [hsucc hb, ihsucc h]
    · rw [if_neg hb, if_neg hb]
      exact ⟨rfl, fun h => absurd h (by simp), List.Forall₂.cons hsim' hrest⟩

/-- Similar rules give literally equal `MatchAndName` results and stay
similar. -/
theorem matchAndName_sim (n₁ n₂ : MatchNamer) (a : ProcAttributes)
    (hsim : SimN n₁ n₂) :
    (matchAndName n₁ a).1 = (matchAndName n₂ a).1 ∧
    SimN (matchAndName n₁ a).2 (matchAndName n₂ a).2 := by
  obtain ⟨htmpl, hml⟩ := hsim
  obtain ⟨hfst, hsucc, hsim'⟩ := andMatch_sim n₁.matchers n₂.matchers a hml
  simp only [matchAndName]
  rw [← hfst]
  by_cases hb : (andMatch n₁.matchers a).1 = true
  · rw [if_pos hb, if_pos hb, hsucc hb, htmpl]
    have h2 := hsim'
    rw [hsucc hb] at h2
    exact ⟨rfl, rfl, h2⟩
  · rw [if_neg hb, if_neg hb]
    exact ⟨rfl, htmpl, hsim'⟩

/-- Similar rule sets give literally equal `FirstMatcher.MatchAndName`
results and stay similar. -/
theorem firstMatchAndName_sim (f₁ f₂ : List MatchNamer) (a : ProcAttributes)
    (hsim : SimF f₁ f₂) :
    (firstMatchAndName f₁ a).1 = (firstMatchAndName f₂ a).1 ∧
    SimF (firstMatchAndName f₁ a).2 (firstMatchAndName f₂ a).2 := by
  induction hsim with
  | nil => exact ⟨rfl, List.Forall₂.nil⟩
  | cons hn hrest ih =>
    rename_i n₁ n₂ rest₁ rest₂
    obtain ⟨hfst, hsim'⟩ := matchAndName_sim n₁ n₂ a hn
    simp only [firstMatchAndName]
    rw [← hfst]
    by_cases hb : (matchAndName n₁ a).1.1 = true
    · rw [if_pos hb, if_pos hb]
      exact ⟨rfl, List.Forall₂.cons hsim' hrest⟩
    · rw [if_neg hb, if_neg hb]
      obtain ⟨ihfst, ihsim⟩ := ih
      exact ⟨ihfst, List.Forall₂.cons hsim' ihsim⟩

/-- The compiled-state invariant of a rule set: every cmdline matcher
holds a non-nil, junk-free captures map.  It holds of the freshly
compiled configuration (all captures maps are empty) and is preserved by
every `MatchAndName` call. -/
def InvF (f : List MatchNamer) : Prop :=
  ∀ mn ∈ f, ∀ m ∈ mn.matchers, JunkFreeM m

theorem SimL_refl_of_jf (ms : List Matcher) (h : ∀ m ∈ ms, JunkFreeM m) :
    SimL ms ms := by
  induction ms with
  | nil => exact List.Forall₂.nil
  | cons m rest ih =>
    exact List.Forall₂.cons
      ⟨rfl, h m (List.mem_cons_self m rest), h m (List.mem_cons_self m rest)⟩
      (ih (fun x hx => h x (List.mem_cons_of_mem m hx)))

theorem SimF_refl_of_inv (f : List MatchNamer) (h : InvF f) : SimF f f := by
  induction f with
  | nil => exact List.Forall₂.nil
  | cons mn rest ih =>
    exact List.Forall₂.cons
      ⟨rfl, SimL_refl_of_jf mn.matchers (h mn (List.mem_cons_self mn rest))⟩
      (ih (fun n hn m hm => h n (List.mem_cons_of_mem mn hn) m hm))

/-- A single `Match` call leaves a matcher similar to its pre-state. -/
theorem SimM_step (m : Matcher) (a : ProcAttributes) (h : JunkFreeM m) :
    SimM (matcherMatch m a).2 m :=
  ⟨skelM_matcherMatch m a, junkFree_matcherMatch m a h, h⟩

/-- A single `andMatcher.Match` call leaves the matcher list similar to
its pre-state. -/
theorem SimL_step (ms : List Matcher) (a : ProcAttributes)
    (h : ∀ m ∈ ms, JunkFreeM m) : SimL (andMatch ms a).2 ms := by
  induction ms with
  | nil => exact List.Forall₂.nil
  | cons m rest ih =>
    have hm := h m (List.mem_cons_self m rest)
    have hrest := fun x hx => h x (List.mem_cons_of_mem m hx)
    simp only [andMatch]
    by_cases hb : (matcherMatch m a).1 = true
    · rw [if_pos hb]
      exact List.Forall₂.cons (SimM_step m a hm) (ih hrest)
    · rw [if_neg hb]
      exact List.Forall₂.cons (SimM_step m a hm) (SimL_refl_of_jf rest hrest)

/-- A single `MatchAndName` call leaves a rule similar to its pre-state. -/
theorem SimN_step (n : MatchNamer) (a : ProcAttributes)
    (h : ∀ m ∈ n.matchers, JunkFreeM m) : SimN (matchAndName n a).2 n := by
  have hl := SimL_step n.matchers a h
  simp only [matchAndName]
  by_cases hb : (andMatch n.matchers a).1 = true
  · rw [if_pos hb]
    exact ⟨rfl, hl⟩
  · rw [if_neg hb]
    exact ⟨rfl, hl⟩

/-- A single `FirstMatcher.MatchAndName` call leaves the rule set similar
to its pre-state. -/
theorem SimF_step (f : List MatchNamer) (a : ProcAttributes) (h : InvF f) :
    SimF (firstMatchAndName f a).2 f := by
  induction f with
  | nil => exact List.Forall₂.nil
  | cons n rest ih =>
    have hn := h n (List.mem_cons_self n rest)
    have hrest : InvF rest := fun x hx m hm => h x (List.mem_cons_of_mem n hx) m hm
    simp only [firstMatchAndName]
    by_cases hb : (matchAndName n a).1.1 = true
    · rw [if_pos hb]
      exact List.Forall₂.cons (SimN_step n a hn) (SimF_refl_of_inv rest hrest)
    · rw [if_neg hb]
      exact List.Forall₂.cons (SimN_step n a hn) (ih hrest)

/-! ## The pure, spec-level evaluator

The following `spec…` definitions follow the specification's words
(§4.1, §4.2, §4.4): a pure match predicate per matcher variant, a
capture map produced fresh per matching attempt, and first-match-wins
iteration.  They are compared with the stateful source embedding. -/

/-- Spec §4.1: the pure verdict of one leaf matcher; for Cmdline, every
regex in the list must match the space-joined argv. -/
def specMatcherMatches (m : Matcher) (a : ProcAttributes) : Bool :=
  match m with
  | .comm comms => commMatch comms a
  | .exe exes => exeMatch exes a
  | .cmdline rs _ => rs.all (fun r => r.matches' (joinCmdline a.Cmdline))

/-- Spec §4.1/§4.4: a rule matches when every leaf matcher matches. -/
def specRuleMatches (mn : MatchNamer) (a : ProcAttributes) : Bool :=
  mn.matchers.all (fun m => specMatcherMatches m a)

/-- Spec §3: the CaptureMap of one attempt, assembled fresh from the
named-group captures of the rule's cmdline matchers. -/
def specMatchesMap (ms : List Matcher) (s : String) : CapMap :=
  ms.foldl
    (fun acc m =>
      match m with
      | .cmdline rs _ => fun k => ((specFreshCaps rs s) k).orElse (fun _ => acc k)
      | _ => acc)
    capEmpty

/-- Spec §4.2: render the rule's template over the derived fields and the
fresh CaptureMap. -/
def specRender (mn : MatchNamer) (a : ProcAttributes) : String :=
  mn.template
    { Comm := a.Name, ExeBase := (exeDerive a).1, ExeFull := (exeDerive a).2,
      Username := a.Username, PID := a.PID, StartTime := a.StartTime,
      Matches := specMatchesMap mn.matchers (joinCmdline a.Cmdline) }

/-- Spec §4.4: first-match-wins evaluation over the declared order. -/
def specFirstMatchAndName (f : List MatchNamer) (a : ProcAttributes) : Bool × String :=
  match f with
  | [] => (false, "")
  | mn :: rest =>
    if specRuleMatches mn a then (true, specRender mn a)
    else specFirstMatchAndName rest a

/-- A junk-free matcher's verdict is the pure spec verdict. -/
theorem matcherMatch_fst_spec (m : Matcher) (a : ProcAttributes) (h : JunkFreeM m) :
    (matcherMatch m a).1 = specMatcherMatches m a := by
  cases m with
  | comm c => rfl
  | exe e => rfl
  | cmdline rs caps =>
    obtain ⟨mm, rfl, _⟩ := h
    simp only [matcherMatch, specMatcherMatches]
    exact cmdlineMatchGo_fst rs mm (joinCmdline a.Cmdline)

/-- A junk-free andMatcher's verdict is the conjunction of the pure
verdicts. -/
theorem andMatch_fst_spec (ms : List Matcher) (a : ProcAttributes)
    (h : ∀ m ∈ ms, JunkFreeM m) :
    (andMatch ms a).1 = ms.all (fun m => specMatcherMatches m a) := by
  induction ms with
  | nil => rfl
  | cons m rest ih =>
    have hm := h m (List.mem_cons_self m rest)
    have hrest := fun x hx => h x (List.mem_cons_of_mem m hx)
    simp only [andMatch, List.all_cons]
    rw [← matcherMatch_fst_spec m a hm]
    by_cases hb : (matcherMatch m a).1 = true
    · rw [if_pos hb, hb, Bool.true_and]
      exact ih hrest
    · rw [if_neg hb]
      rw [Bool.not_eq_true] at hb
      rw [hb, Bool.false_and]

/-- After a successful match every cmdline matcher holds exactly the
fresh per-attempt capture map. -/
def freshRun (s : String) : Matcher → Matcher
  | .cmdline rs _ => .cmdline rs (some (specFreshCaps rs s))
  | m => m

theorem andMatch_snd_spec (ms : List Matcher) (a : ProcAttributes)
    (h : ∀ m ∈ ms, JunkFreeM m) (hsucc : (andMatch ms a).1 = true) :
    (andMatch ms a).2 = ms.map (freshRun (joinCmdline a.Cmdline)) := by
  induction ms with
  | nil => rfl
  | cons m rest ih =>
    have hm := h m (List.mem_cons_self m rest)
    have hrest := fun x hx => h x (List.mem_cons_of_mem m hx)
    simp only [andMatch] at hsucc ⊢
    by_cases hb : (matcherMatch m a).1 = true
    · rw [if_pos hb] at hsucc ⊢
      simp only [List.map_cons, List.cons.injEq]
      refine ⟨?_, ih hrest hsucc⟩
      cases m with
      | comm c => rfl
      | exe e => rfl
      | cmdline rs caps =>
        obtain ⟨mm, rfl, hjf⟩ := hm
        simp only [matcherMatch] at hb ⊢
        rw [cmdlineMatchGo_fst] at hb
        simp only [freshRun]
        rw [cmdlineMatchGo_fresh rs (joinCmdline a.Cmdline) mm hjf hb]
    · rw [if_neg hb] at hsucc
      exact absurd hsucc (by simp)

/-- Fresh-state capture collection coincides with the spec's fresh
CaptureMap (generalised over the accumulator). -/
theorem collect_fresh_aux (ms : List Matcher) (s : String) (acc : CapMap) :
    (ms.map (freshRun s)).foldl
      (fun acc m =>
        match m with
        | .cmdline _ (some caps) => fun k => (caps k).orElse (fun _ => acc k)
        | _ => acc)
      acc =
    ms.foldl
      (fun acc m =>
        match m with
        | .cmdline rs _ => fun k => ((specFreshCaps rs s) k).orElse (fun _ => acc k)
        | _ => acc)
      acc := by
  induction ms generalizing acc with
  | nil => rfl
  | cons m rest ih =>
    cases m with
    | comm c => exact ih acc
    | exe e => exact ih acc
    | cmdline rs caps => exact ih _

theorem collectCaptures_fresh (ms : List Matcher) (s : String) :
    collectCaptures (ms.map (freshRun s)) = specMatchesMap ms s :=
  collect_fresh_aux ms s capEmpty

/-- A junk-free rule's `MatchAndName` result is the spec-level result. -/
theorem matchAndName_fst_spec (mn : MatchNamer) (a : ProcAttributes)
    (h : ∀ m ∈ mn.matchers, JunkFreeM m) :
    (matchAndName mn a).1 =
      if specRuleMatches mn a then (true, specRender mn a) else (false, "") := by
  simp only [matchAndName, specRuleMatches]
  by_cases hb : (andMatch mn.matchers a).1 = true
  · have hspec : (mn.matchers.all fun m => specMatcherMatches m a) = true := by
      rw [← andMatch_fst_spec mn.matchers a h]
      exact hb
    rw [if_pos hb, if_pos hspec]
    rw [andMatch_snd_spec mn.matchers a h hb, collectCaptures_fresh]
    rfl
  · have hspec : ¬ (mn.matchers.all fun m => specMatcherMatches m a) = true := by
      rw [← andMatch_fst_spec mn.matchers a h]
      exact hb
    rw [if_neg hb, if_neg hspec]

/-- C4 core: the stateful first-match evaluation refines the spec-level
pure evaluation whenever the rule-set invariant holds. -/
theorem firstMatchAndName_spec (f : List MatchNamer) (a : ProcAttributes)
    (hInv : InvF f) :
    (firstMatchAndName f a).1 = specFirstMatchAndName f a := by
  induction f with
  | nil => rfl
  | cons mn rest ih =>
    have hmn := hInv mn (List.mem_cons_self mn rest)
    have hrest : InvF rest := fun x hx m hm => hInv x (List.mem_cons_of_mem mn hx) m hm
    simp only [firstMatchAndName, specFirstMatchAndName]
    have hfst := matchAndName_fst_spec mn a hmn
    by_cases hb : specRuleMatches mn a = true
    · rw [if_pos hb] at hfst
      rw [if_pos hb]
      have h11 : (matchAndName mn a).1.1 = true := by rw [hfst]
      rw [if_pos h11, hfst]
    · rw [if_neg hb] at hfst
      rw [if_neg hb]
      have h11 : ¬ (matchAndName mn a).1.1 = true := by rw [hfst]; simp
      rw [if_neg h11]
      exact ih hrest

/-! ## Concrete capability artifacts

Models of the external engines' outputs for the specific literals the
specification's examples use: the compiled regex
`^myapp --flag=(?P<val>\w+)$` and the parsed templates `{{.ExeBase}}`
and `{{.Matches.val}}`. -/

/-- RE2 `\w` (no unicode flag): `[0-9A-Za-z_]`. -/
def isWordChar (c : Char) : Bool := c.isAlphanum || c = '_'

/-- `FindStringSubmatch` of the compiled `^myapp --flag=(?P<val>\w+)$`:
anchored at both ends, so the whole string must be the literal prefix
followed by one or more word characters; on success the submatch slice is
the whole match and the `val` group.  (13 is the prefix length.) -/
def flagRegexFind (s : String) : Option (List String) :=
  if "myapp --flag=".data.isPrefixOf s.data && s.drop 13 != ""
      && (s.drop 13).data.all isWordChar
  then some [s, s.drop 13] else none

/-- The compiled `^myapp --flag=(?P<val>\w+)$`: one named group `val`. -/
def flagRegex : Regex where
  findStringSubmatch := flagRegexFind
  subexpNames := ["", "val"]
  names_pos := by decide
  match_len := by
    intro s l h
    unfold flagRegexFind at h
    split at h
    · simp at h
      simp [← h]
    · exact absurd h (by simp)

/-- The parsed template `{{.ExeBase}}`. -/
def tmplExeBase : Template := fun p => p.ExeBase

/-- The parsed template `{{.Matches.val}}` (a missing map key renders as
the zero string). -/
def tmplMatchesVal : Template := fun p => (p.Matches "val").getD ""

/-- The regex-compilation capability, defined on the pattern the examples
use. -/
def compileStub (p : String) : Except String Regex :=
  if p = "^myapp --flag=(?P<val>\\w+)$" then .ok flagRegex
  else .error "unsupported pattern"

/-- The template-parsing capability, defined on the templates the
examples use. -/
def parseStub (t : String) : Except String Template :=
  if t = "{{.ExeBase}}" then .ok tmplExeBase
  else if t = "{{.Matches.val}}" then .ok tmplMatchesVal
  else .error "unsupported template"

/-- The rule definition `{cmdline: ["^myapp --flag=(?P<val>\w+)$"],
name: "{{.Matches.val}}"}`. -/
def flagDef : YamlValue :=
  .map [(.str "cmdline", .list [.str "^myapp --flag=(?P<val>\\w+)$"]),
        (.str "name", .str "{{.Matches.val}}")]

/-- A process running `myapp --flag=123`. -/
def flagAttrs : ProcAttributes :=
  { Name := "myapp", Cmdline := ["myapp", "--flag=123"],
    Username := "app", PID := 7, StartTime := 0 }

/-- A second process with a different flag value. -/
def flagAttrs2 : ProcAttributes :=
  { Name := "myapp", Cmdline := ["myapp", "--flag=zz9"],
    Username := "app", PID := 8, StartTime := 0 }

/-- The rule definition `{comm: ["sshd"]}` (no name template). -/
def sshdDef : YamlValue := .map [(.str "comm", .list [.str "sshd"])]

/-- A process named `sshd` with an empty command line. -/
def sshdAttrs : ProcAttributes :=
  { Name := "sshd", Cmdline := [], Username := "root", PID := 9, StartTime := 0 }

/-! ## Claims -/

/-- C1: for every compiled cmdline matcher (its captures map is non-nil,
as `getMatchNamer` creates it with `make`) and every attribute record,
`cmdlineMatcher.Match` returns true iff every regex in its list matches
the space-joined Cmdline; if any single regex fails to match the joined
string, it returns false. -/
theorem cmdlineMatcher_and_semantics (rs : List Regex) (m : CapMap) (a : ProcAttributes) :
    (matcherMatch (.cmdline rs (some m)) a).1 =
      rs.all (fun r => r.matches' (joinCmdline a.Cmdline)) := by
  simp only [matcherMatch]
  exact cmdlineMatchGo_fst rs m (joinCmdline a.Cmdline)

/-- C3: against a rule set satisfying the compiled-state invariant, the
result (matched flag and rendered name) of a second `MatchAndName` call
is independent of the attributes passed to an earlier call: evaluating
from the post-state of any first call gives the same result as
evaluating from the original state. -/
theorem matchAndName_no_leakage (f : List MatchNamer) (hInv : InvF f)
    (a b : ProcAttributes) :
    (firstMatchAndName (firstMatchAndName f a).2 b).1 =
      (firstMatchAndName f b).1 :=
  (firstMatchAndName_sim (firstMatchAndName f a).2 f b (SimF_step f a hInv)).1

/-- The single-rule set used to witness C3. -/
def flagRules : List MatchNamer :=
  [{ matchers := [.cmdline [flagRegex] (some capEmpty)], template := tmplMatchesVal }]

theorem flagRules_inv : InvF flagRules := by
  intro mn hmn m hm
  simp only [flagRules, List.mem_singleton] at hmn
  subst hmn
  simp only [List.mem_singleton] at hm
  subst hm
  exact ⟨capEmpty, rfl, fun _ _ => rfl⟩

/-- C3 witness: a first call on `myapp --flag=123` does not change what a
later call on `myapp --flag=zz9` returns, and the later call returns the
captures of its own attributes only. -/
theorem matchAndName_no_leakage_witness :
    InvF flagRules ∧
    (firstMatchAndName (firstMatchAndName flagRules flagAttrs).2 flagAttrs2).1 =
      (firstMatchAndName flagRules flagAttrs2).1 ∧
    (firstMatchAndName (firstMatchAndName flagRules flagAttrs).2 flagAttrs2).1 =
      (true, "zz9") :=
  ⟨flagRules_inv,
   matchAndName_no_leakage flagRules flagRules_inv flagAttrs flagAttrs2,
   (matchAndName_no_leakage flagRules flagRules_inv flagAttrs flagAttrs2).trans
     (by decide)⟩

/-- When no rule matches, the spec evaluation returns `(false, "")`. -/
theorem specFirst_none (f : List MatchNamer) (a : ProcAttributes)
    (h : ∀ mn ∈ f, specRuleMatches mn a = false) :
    specFirstMatchAndName f a = (false, "") := by
  induction f with
  | nil => rfl
  | cons mn rest ih =>
    simp only [specFirstMatchAndName]
    rw [if_neg (by rw [h mn (List.mem_cons_self mn rest)]; simp)]
    exact ih (fun x hx => h x (List.mem_cons_of_mem mn hx))

/-- C4: under the compiled-state invariant, `FirstMatcher.MatchAndName`
computes the pure first-match-wins evaluation over the declared order:
in particular, when the head rule matches its rendered name is returned
(so of two matching rules the earlier one wins), and when no rule
matches the result is `(false, "")`. -/
theorem firstMatcher_order (f : List MatchNamer) (a : ProcAttributes)
    (hInv : InvF f) :
    (firstMatchAndName f a).1 = specFirstMatchAndName f a ∧
    ((∀ mn ∈ f, specRuleMatches mn a = false) →
      (firstMatchAndName f a).1 = (false, "")) ∧
    (∀ mn rest, f = mn :: rest → specRuleMatches mn a = true →
      (firstMatchAndName f a).1 = (true, specRender mn a)) := by
  refine ⟨firstMatchAndName_spec f a hInv, ?_, ?_⟩
  · intro hall
    rw [firstMatchAndName_spec f a hInv]
    exact specFirst_none f a hall
  · intro mn rest hf hmn
    rw [firstMatchAndName_spec f a hInv, hf]
    simp only [specFirstMatchAndName]
    rw [if_pos hmn]

/-- The two-rule set used to witness C4: both rules match a process
named `sshd`; the first renders `{{.ExeBase}}`, the second would render
the empty string. -/
def sshdRules : List MatchNamer :=
  [{ matchers := [.comm ["sshd"]], template := tmplExeBase },
   { matchers := [.comm ["sshd"]], template := tmplMatchesVal }]

theorem sshdRules_inv : InvF sshdRules := by
  intro mn hmn m hm
  simp only [sshdRules, List.mem_cons, List.not_mem_nil, or_false] at hmn
  rcases hmn with rfl | rfl <;>
    (simp only [List.mem_singleton] at hm
     subst hm
     trivial)

/-- C4 witness: with both rules matching, the first rule's rendered name
(`"sshd"`, not the second rule's `""`) is returned. -/
theorem firstMatcher_order_witness :
    InvF sshdRules ∧
    (firstMatchAndName sshdRules sshdAttrs).1 = (true, "sshd") :=
  ⟨sshdRules_inv,
   ((firstMatcher_order sshdRules sshdAttrs sshdRules_inv).1).trans (by decide)⟩

/-- C5: a compiled exe matcher returns false on an empty Cmdline;
otherwise it takes the basename of `Cmdline[0]` and returns false when
that basename is not a configured key, true when the configured value is
the empty string, and — when a full path was configured — true exactly
when `Cmdline[0]` equals that path; an `exe` entry containing `/` is
registered under its basename with the full path as value. -/
theorem exeMatcher_characterization :
    (∀ exes a, a.Cmdline = [] → exeMatch exes a = false) ∧
    (∀ exes a c0 rest, a.Cmdline = c0 :: rest →
      exes (filepathBase c0) = none → exeMatch exes a = false) ∧
    (∀ exes a c0 rest, a.Cmdline = c0 :: rest →
      exes (filepathBase c0) = some "" → exeMatch exes a = true) ∧
    (∀ exes a c0 rest p, a.Cmdline = c0 :: rest →
      exes (filepathBase c0) = some p → p ≠ "" →
      (exeMatch exes a = true ↔ p = c0)) ∧
    (∀ e, containsSlash e = true → buildExes [e] (filepathBase e) = some e) := by
  refine ⟨?_, ?_, ?_, ?_, ?_⟩
  · intro exes a ha
    simp [exeMatch, ha]
  · intro exes a c0 rest ha hl
    simp [exeMatch, ha, hl]
  · intro exes a c0 rest ha hl
    simp [exeMatch, ha, hl]
  · intro exes a c0 rest p ha hl hp
    simp [exeMatch, ha, hl, hp]
  · intro e he
    simp [buildExes, he, capInsert]

/-- C6: the rule compiled from `cmdline: ["^myapp --flag=(?P<val>\w+)$"]`
with name template `{{.Matches.val}}`, applied to attributes with Cmdline
`["myapp","--flag=123"]`, matches and renders `"123"`: the argv is joined
with a single space, the named group fills the capture map, and the
template renders the captured substring. -/
theorem cmdline_capture_rendering :
    ((getMatchNamer compileStub parseStub flagDef).map
        (fun mn => (matchAndName mn flagAttrs).1)).toOption =
      some (true, "123") := by
  decide

/-- C7: the template fields satisfy ExeFull = Cmdline[0] and ExeBase =
basename of Cmdline[0] when Cmdline is non-empty, and both equal Comm
(the process name) when Cmdline is empty; a successful match renders the
rule's template over exactly these fields; and a definition with only
`comm: ["sshd"]` and no name key uses the default `{{.ExeBase}}`
template, so a process named `sshd` with empty Cmdline yields `"sshd"`. -/
theorem template_fields_and_default (a : ProcAttributes) :
    (∀ c0 rest, a.Cmdline = c0 :: rest → exeDerive a = (filepathBase c0, c0)) ∧
    (a.Cmdline = [] → exeDerive a = (a.Name, a.Name)) ∧
    (∀ mn : MatchNamer, (andMatch mn.matchers a).1 = true →
      (matchAndName mn a).1 = (true, mn.template
        { Comm := a.Name, ExeBase := (exeDerive a).1, ExeFull := (exeDerive a).2,
          Username := a.Username, PID := a.PID, StartTime := a.StartTime,
          Matches := collectCaptures (andMatch mn.matchers a).2 })) ∧
    (((getMatchNamer compileStub parseStub sshdDef).map
        (fun mn => (matchAndName mn sshdAttrs).1)).toOption = some (true, "sshd")) := by
  refine ⟨?_, ?_, ?_, ?_⟩
  · intro c0 rest ha
    simp [exeDerive, ha]
  · intro ha
    simp [exeDerive, ha]
  · intro mn hsucc
    simp only [matchAndName]
    rw [if_pos hsucc]
  · decide

/-- C7 witness: the field derivation at a process with argv
`["myapp","--flag=123"]` and at one with empty argv. -/
theorem template_fields_witness :
    exeDerive flagAttrs = ("myapp", "myapp") ∧
    exeDerive sshdAttrs = ("sshd", "sshd") :=
  ⟨((template_fields_and_default flagAttrs).1 "myapp" ["--flag=123"] rfl).trans
      (by decide),
   (template_fields_and_default sshdAttrs).2.1 rfl⟩

/-- C5 witness: with `exe: ["/opt/a/bin/app"]` configured, a process with
`Cmdline[0] = "/opt/b/bin/app"` (same basename, different path) does not
match, while `Cmdline[0] = "/opt/a/bin/app"` does. -/
theorem exeMatcher_characterization_witness :
    exeMatch (buildExes ["/opt/a/bin/app"])
        { Name := "app", Cmdline := ["/opt/b/bin/app"], Username := "u",
          PID := 1, StartTime := 0 } = false ∧
    exeMatch (buildExes ["/opt/a/bin/app"])
        { Name := "app", Cmdline := ["/opt/a/bin/app"], Username := "u",
          PID := 2, StartTime := 0 } = true := by
  constructor
  · have h := exeMatcher_characterization.2.2.2.1 (buildExes ["/opt/a/bin/app"])
      { Name := "app", Cmdline := ["/opt/b/bin/app"], Username := "u",
        PID := 1, StartTime := 0 }
      "/opt/b/bin/app" [] "/opt/a/bin/app" rfl (by decide) (by decide)
    cases hb : exeMatch (buildExes ["/opt/a/bin/app"])
        { Name := "app", Cmdline := ["/opt/b/bin/app"], Username := "u",
          PID := 1, StartTime := 0 } with
    | false => rfl
    | true => exact absurd (h.mp hb) (by decide)
  · exact exeMatcher_characterization.2.2.2.1 (buildExes ["/opt/a/bin/app"])
      { Name := "app", Cmdline := ["/opt/a/bin/app"], Username := "u",
        PID := 2, StartTime := 0 }
      "/opt/a/bin/app" [] "/opt/a/bin/app" rfl (by decide) (by decide)
      |>.mpr (by decide)

/-! ## Static-name extraction claims -/

/-- The entry's key is a string. -/
def isStrKey : YamlValue × YamlValue → Bool
  | (.str _, _) => true
  | _ => false

/-- The entry's key is the given string. -/
def keyIs (key : String) : YamlValue × YamlValue → Bool
  | (.str k, _) => k = key
  | _ => false

/-- A `name` entry, if present, carries a string value. -/
def nameOk : YamlValue × YamlValue → Bool
  | (.str k, v) =>
    if k = "name" then (match v with | .str _ => true | _ => false) else true
  | _ => true

/-- `comm` and `exe` entries, if present, carry lists of strings. -/
def commExeOk : YamlValue × YamlValue → Bool
  | (.str k, v) => if k = "comm" || k = "exe" then (strListOf v).isSome else true
  | _ => true

/-- C2 (code behaviour): a definition carrying `report_missing: false`
still has its static names extracted — the code records only that the
key is present — unlike the same definition without the key, which
yields none.  The claim says the two should agree on the empty list. -/
theorem reportMissing_false_still_extracts :
    getProcessNames (.map [(.str "comm", .list [.str "bash"]),
                           (.str "report_missing", .bool false)]) = ["bash"] ∧
    getProcessNames (.map [(.str "comm", .list [.str "bash"])]) = [] := by
  decide

/-- Spec §4.5: the literal `name` of a definition, when present. -/
def specFindName (nm : List (YamlValue × YamlValue)) : Option String :=
  nm.findSome? (fun e =>
    match e with
    | (.str k, .str s) => if k = "name" then some s else none
    | _ => none)

/-- Spec §4.5: the names one entry contributes when no literal `name` is
present: `comm` strings verbatim, `exe` entries through their basename. -/
def specEntryNames : YamlValue × YamlValue → List String
  | (.str k, v) =>
    if k = "comm" then (strListOf v).getD []
    else if k = "exe" then ((strListOf v).getD []).map exeEntryName
    else []
  | _ => []

/-- Spec §4.5: the extracted static names of a definition flagged with
`report_missing`: the single literal name if present, otherwise the
`comm`/`exe` contributions in entry order. -/
def specStaticNames (nm : List (YamlValue × YamlValue)) : List String :=
  match specFindName nm with
  | some s => [s]
  | none => nm.foldr (fun e acc => specEntryNames e ++ acc) []

theorem scanReportMissing_true (pre post : List (YamlValue × YamlValue))
    (hpreK : pre.all isStrKey = true)
    (hpreRM : pre.all (fun e => ! keyIs "report_missing" e) = true) :
    scanReportMissing (pre ++ (.str "report_missing", .bool true) :: post) =
      some true := by
  induction pre with
  | nil => rfl
  | cons e rest ih =>
    rw [List.all_cons, Bool.and_eq_true] at hpreK hpreRM
    obtain ⟨k, v⟩ := e
    cases k with
    | str key =>
      have hne : ¬ key = "report_missing" := by
        have := hpreRM.1
        simp [keyIs] at this
        exact this
      simp only [List.cons_append, scanReportMissing]
      rw [if_neg hne]
      exact ih hpreK.2 hpreRM.2
    | bool b => simp [isStrKey] at hpreK
    | int n => simp [isStrKey] at hpreK
    | list l => simp [isStrKey] at hpreK
    | map m => simp [isStrKey] at hpreK

theorem scanName_ok (nm : List (YamlValue × YamlValue))
    (hK : nm.all isStrKey = true) (hname : nm.all nameOk = true) :
    scanName nm = .ok (specFindName nm) := by
  induction nm with
  | nil => rfl
  | cons e rest ih =>
    rw [List.all_cons, Bool.and_eq_true] at hK hname
    obtain ⟨k, v⟩ := e
    cases k with
    | str key =>
      by_cases hk : key = "name"
      · subst hk
        cases v with
        | str s => simp [scanName, specFindName, List.findSome?_cons]
        | bool b => simp [nameOk] at hname
        | int n => simp [nameOk] at hname
        | list l => simp [nameOk] at hname
        | map m => simp [nameOk] at hname
      · have hstep : scanName ((⟨.str key, v⟩ : YamlValue × YamlValue) :: rest) =
            scanName rest := by
          simp only [scanName]
          rw [if_neg hk]
        have hfind : specFindName ((⟨.str key, v⟩ : YamlValue × YamlValue) :: rest) =
            specFindName rest := by
          simp only [specFindName, List.findSome?_cons]
          cases v <;> simp [hk]
        rw [hstep, hfind]
        exact ih hK.2 hname.2
    | bool b => simp [isStrKey] at hK
    | int n => simp [isStrKey] at hK
    | list l => simp [isStrKey] at hK
    | map m => simp [isStrKey] at hK

theorem scanCommExe_ok (nm : List (YamlValue × YamlValue))
    (hK : nm.all isStrKey = true) (hce : nm.all commExeOk = true) :
    scanCommExe nm = some (nm.foldr (fun e acc => specEntryNames e ++ acc) []) := by
  induction nm with
  | nil => rfl
  | cons e rest ih =>
    rw [List.all_cons, Bool.and_eq_true] at hK hce
    obtain ⟨k, v⟩ := e
    cases k with
    | str key =>
      by_cases hcomm : key = "comm"
      · subst hcomm
        obtain ⟨ss, hss⟩ := Option.isSome_iff_exists.mp (by simpa [commExeOk] using hce.1)
        have hhead : specEntryNames (⟨.str "comm", v⟩ : YamlValue × YamlValue) = ss := by
          simp [specEntryNames, hss]
        have hstep : scanCommExe ((⟨.str "comm", v⟩ : YamlValue × YamlValue) :: rest) =
            (scanCommExe rest).map (fun ns => ss ++ ns) := by
          simp [scanCommExe, hss]
        rw [hstep, List.foldr_cons, hhead, ih hK.2 hce.2]
        rfl
      · by_cases hexe : key = "exe"
        · subst hexe
          obtain ⟨ss, hss⟩ := Option.isSome_iff_exists.mp
            (by simpa [commExeOk] using hce.1)
          have hhead : specEntryNames (⟨.str "exe", v⟩ : YamlValue × YamlValue) =
              ss.map exeEntryName := by
            simp [specEntryNames, hss]
          have hstep : scanCommExe ((⟨.str "exe", v⟩ : YamlValue × YamlValue) :: rest) =
              (scanCommExe rest).map (fun ns => ss.map exeEntryName ++ ns) := by
            simp [scanCommExe, hss]
          rw [hstep, List.foldr_cons, hhead, ih hK.2 hce.2]
          rfl
        · have hstep : scanCommExe ((⟨.str key, v⟩ : YamlValue × YamlValue) :: rest) =
              scanCommExe rest := by
            simp only [scanCommExe]
            rw [if_neg hcomm, if_neg hexe]
          have hhead : specEntryNames (⟨.str key, v⟩ : YamlValue × YamlValue) = [] := by
            simp only [specEntryNames]
            rw [if_neg hcomm, if_neg hexe]
          rw [hstep, List.foldr_cons, hhead, ih hK.2 hce.2, List.nil_append]
    | bool b => simp [isStrKey] at hK
    | int n => simp [isStrKey] at hK
    | list l => simp [isStrKey] at hK
    | map m => simp [isStrKey] at hK

/-- C8: for a well-formed definition carrying `report_missing: true`
(string keys; a string `name` value if the key is present; string-list
`comm`/`exe` values), the extracted static names are exactly the spec's:
the single literal `name` when present (`comm`/`exe` contribute nothing),
otherwise all `comm` strings together with the basenames of the `exe`
entries, an entry with a path separator contributing only its basename. -/
theorem staticNames_extraction (pre post : List (YamlValue × YamlValue))
    (hpreRM : pre.all (fun e => ! keyIs "report_missing" e) = true)
    (hK : (pre ++ (.str "report_missing", .bool true) :: post).all isStrKey = true)
    (hname : (pre ++ (.str "report_missing", .bool true) :: post).all nameOk = true)
    (hce : (pre ++ (.str "report_missing", .bool true) :: post).all commExeOk = true) :
    getProcessNames (.map (pre ++ (.str "report_missing", .bool true) :: post)) =
      specStaticNames (pre ++ (.str "report_missing", .bool true) :: post) := by
  have hpreK : pre.all isStrKey = true := by
    rw [List.all_append, Bool.and_eq_true] at hK
    exact hK.1
  simp only [getProcessNames]
  rw [scanReportMissing_true pre post hpreK hpreRM,
    scanName_ok _ hK hname]
  simp only [specStaticNames]
  cases hfn : specFindName (pre ++ (.str "report_missing", .bool true) :: post) with
  | some s => rfl
  | none =>
    rw [scanCommExe_ok _ hK hce]
    rfl

/-- C8 witness: `{exe: ["/usr/sbin/nginx"], report_missing: true}` yields
exactly `["nginx"]` (the basename). -/
theorem staticNames_extraction_witness :
    getProcessNames (.map [(.str "exe", .list [.str "/usr/sbin/nginx"]),
                           (.str "report_missing", .bool true)]) = ["nginx"] :=
  (staticNames_extraction [(.str "exe", .list [.str "/usr/sbin/nginx"])] []
      (by decide) (by decide) (by decide) (by decide)).trans (by decide)

/-! ## Compile-error claims -/

/-- Entry shapes `getMatchNamer` accepts without error: a string `name`,
any `report_missing`, and a list of strings under any other string key. -/
def wfOtherEntry : YamlValue × YamlValue → Bool
  | (.str k, v) =>
    if k = "name" then (match v with | .str _ => true | _ => false)
    else if k = "report_missing" then true
    else (strListOf v).isSome
  | _ => false

/-- The entry's key is none of `comm`, `exe`, `cmdline`. -/
def notMatcherKey : YamlValue × YamlValue → Bool
  | (.str k, _) => !(k = "comm" || k = "exe" || k = "cmdline")
  | _ => true

/-- `decodeStrList` succeeds on exactly the lists `strListOf` accepts. -/
theorem decodeStrList_ok (key : String) (vals : List YamlValue) (idx : Nat)
    (shown : String) (ss : List String) (h : strListOf (.list vals) = some ss) :
    decodeStrList key vals idx shown = .ok ss := by
  induction vals generalizing idx ss with
  | nil =>
    simp only [strListOf, List.foldr_nil, Option.some.injEq] at h
    subst h
    rfl
  | cons v rest ih =>
    cases v with
    | str s =>
      simp only [strListOf, List.foldr_cons] at h
      cases hrest : List.foldr
          (fun v acc =>
            match v, acc with
            | .str s, some ss => some (s :: ss)
            | _, _ => none)
          (some []) rest with
      | none => rw [hrest] at h; exact absurd h (by simp)
      | some tail =>
        rw [hrest] at h
        simp only [Option.some.injEq] at h
        subst h
        have htail : strListOf (.list rest) = some tail := hrest
        simp only [decodeStrList, ih (idx + 1) tail htail]
        rfl
    | bool b => simp [strListOf] at h
    | int n => simp [strListOf] at h
    | list l =>
      exfalso
      simp only [strListOf, List.foldr_cons] at h
      cases List.foldr
          (fun v acc =>
            match v, acc with
            | .str s, some ss => some (s :: ss)
            | _, _ => none)
          (some []) rest <;> simp at h
    | map m =>
      exfalso
      simp only [strListOf, List.foldr_cons] at h
      cases List.foldr
          (fun v acc =>
            match v, acc with
            | .str s, some ss => some (s :: ss)
            | _, _ => none)
          (some []) rest <;> simp at h

/-- Inserting under a different key does not change a lookup. -/
theorem smapLookup_insert_ne (key k : String) (v : List String)
    (smap : List (String × List String)) (h : ¬ key = k) :
    smapLookup key (smapInsert k v smap) = smapLookup key smap := by
  simp only [smapLookup, smapInsert, List.find?_cons]
  have hk : (decide ((k, v).1 = key)) = false := by
    simp only [decide_eq_false_iff_not]
    intro hkk
    exact h hkk.symm
  simp only [hk]
  congr 1
  induction smap with
  | nil => rfl
  | cons e rest ih =>
    by_cases he : e.1 = k
    · rw [List.filter_cons_of_neg (by simp [he])]
      have hek : decide (e.1 = key) = false := by
        simp only [decide_eq_false_iff_not]
        intro hc
        exact h (by rw [← hc, he])
      simp only [List.find?_cons, hek]
      exact ih
    · rw [List.filter_cons_of_pos (by simp [he])]
      simp only [List.find?_cons]
      cases hek : decide (e.1 = key) with
      | true => rfl
      | false => exact ih

/-- Under well-formed, matcher-free entries, the smap-building loop
succeeds and its result still has no `comm`/`exe`/`cmdline` key. -/
theorem buildSmap_no_matcher (nm : List (YamlValue × YamlValue))
    (smap : List (String × List String)) (t : String)
    (h1 : nm.all wfOtherEntry = true) (h2 : nm.all notMatcherKey = true)
    (hs : ∀ key, key = "comm" ∨ key = "exe" ∨ key = "cmdline" →
      smapLookup key smap = none) :
    ∃ smap' t', buildSmap nm smap t = .ok (smap', t') ∧
      ∀ key, key = "comm" ∨ key = "exe" ∨ key = "cmdline" →
        smapLookup key smap' = none := by
  induction nm generalizing smap t with
  | nil => exact ⟨smap, t, rfl, hs⟩
  | cons e rest ih =>
    rw [List.all_cons, Bool.and_eq_true] at h1 h2
    obtain ⟨k, v⟩ := e
    cases k with
    | str key =>
      by_cases hname : key = "name"
      · subst hname
        cases v with
        | str s =>
          simp only [buildSmap]
          exact ih smap s h1.2 h2.2 hs
        | bool b => simp [wfOtherEntry] at h1
        | int n => simp [wfOtherEntry] at h1
        | list l => simp [wfOtherEntry] at h1
        | map m => simp [wfOtherEntry] at h1
      · by_cases hrm : key = "report_missing"
        · subst hrm
          simp only [buildSmap]
          rw [if_neg (by decide)]
          exact ih smap t h1.2 h2.2 hs
        · have hlist : (strListOf v).isSome = true := by
            have := h1.1
            simp only [wfOtherEntry] at this
            rw [if_neg hname, if_neg hrm] at this
            exact this
          obtain ⟨ss, hss⟩ := Option.isSome_iff_exists.mp hlist
          cases v with
          | list vals =>
            simp only [buildSmap]
            rw [if_neg hname, if_neg hrm, decodeStrList_ok key vals 0 (yamlShow (.list vals)) ss hss]
            apply ih (smapInsert key ss smap) t h1.2 h2.2
            intro key' hkey'
            have hne : ¬ key' = key := by
              intro hkeq
              rw [hkeq] at hkey'
              rcases hkey' with h | h | h <;>
                (have hnm := h2.1
                 simp [notMatcherKey, h] at hnm)
            rw [smapLookup_insert_ne key' key ss smap hne]
            exact hs key' hkey'
          | str s => simp [strListOf] at hss
          | bool b => simp [strListOf] at hss
          | int n => simp [strListOf] at hss
          | map m => simp [strListOf] at hss
    | bool b => simp [wfOtherEntry] at h1
    | int n => simp [wfOtherEntry] at h1
    | list l => simp [wfOtherEntry] at h1
    | map m => simp [wfOtherEntry] at h1

/-- A definition whose entries are well-formed but contain none of the
matcher keys compiles to the `no matchers provided` error (the check
precedes template parsing). -/
theorem getMatchNamer_no_matchers (compile : String → Except String Regex)
    (parseTmpl : String → Except String Template)
    (nm : List (YamlValue × YamlValue))
    (h1 : nm.all wfOtherEntry = true) (h2 : nm.all notMatcherKey = true) :
    getMatchNamer compile parseTmpl (.map nm) = .error .noMatchers := by
  obtain ⟨smap', t', hbs, hnone⟩ :=
    buildSmap_no_matcher nm [] "" h1 h2 (fun key _ => rfl)
  simp only [getMatchNamer, hbs]
  rw [hnone "comm" (Or.inl rfl), hnone "exe" (Or.inr (Or.inl rfl)),
    hnone "cmdline" (Or.inr (Or.inr rfl))]
  rfl

/-- The compilation loop propagates the first failing definition's error
with its index. -/
theorem getConfigLoop_error (compile : String → Except String Regex)
    (parseTmpl : String → Except String Template)
    (pre : List YamlValue) (d : YamlValue) (post : List YamlValue)
    (i : Nat) (e : CfgError)
    (hpre : ∀ p ∈ pre, (getMatchNamer compile parseTmpl p).isOk = true)
    (hd : getMatchNamer compile parseTmpl d = .error e) :
    getConfigLoop compile parseTmpl (pre ++ d :: post) i =
      .error (.entry (i + pre.length) e) := by
  revert hpre
  induction pre generalizing i with
  | nil =>
    intro _
    simp only [List.nil_append, getConfigLoop, hd, List.length_nil, Nat.add_zero]
  | cons p rest ih =>
    intro hpre
    have hp := hpre p (List.mem_cons_self p rest)
    obtain ⟨mn, hmn⟩ : ∃ mn, getMatchNamer compile parseTmpl p = .ok mn := by
      cases hg : getMatchNamer compile parseTmpl p with
      | ok mn => exact ⟨mn, rfl⟩
      | error e2 =>
        rw [hg] at hp
        exact absurd hp (by simp [Except.isOk, Except.toBool])
    simp only [List.cons_append, getConfigLoop, hmn, List.append_eq]
    rw [ih (i + 1) (fun q hq => hpre q (List.mem_cons_of_mem p hq))]
    have harith : i + 1 + rest.length = i + (p :: rest).length := by
      simp [List.length_cons]
      omega
    rw [harith]

/-- C9: a rule definition with none of the keys `comm`, `exe`, `cmdline`
(and otherwise well-formed entries) fails to compile with exactly the
`no matchers provided` error; and when the definitions of a configuration
contain an invalid entry, `GetConfig` stops at the first one, reports its
index together with the underlying error, and produces no configuration
(the `Except` result carries no value). -/
theorem compile_error_handling
    (compile : String → Except String Regex)
    (parseTmpl : String → Except String Template) :
    (∀ nm : List (YamlValue × YamlValue), nm.all wfOtherEntry = true →
      nm.all notMatcherKey = true →
      getMatchNamer compile parseTmpl (.map nm) = .error .noMatchers) ∧
    (∀ (pre : List YamlValue) (d : YamlValue) (post : List YamlValue) (e : CfgError),
      (∀ p ∈ pre, (getMatchNamer compile parseTmpl p).isOk = true) →
      getMatchNamer compile parseTmpl d = .error e →
      GetConfig compile parseTmpl [("process_names", .list (pre ++ d :: post))] =
        .error (.entry pre.length e)) ∧
    CfgError.noMatchers.render = "no matchers provided" := by
  refine ⟨getMatchNamer_no_matchers compile parseTmpl, ?_, rfl⟩
  intro pre d post e hpre hd
  have hfind : (([(("process_names" : String),
        YamlValue.list (pre ++ d :: post))].find?
          (fun p => p.1 = "process_names")).map (fun p => p.2)) =
      some (.list (pre ++ d :: post)) := by
    simp
  simp only [GetConfig, hfind]
  rw [getConfigLoop_error compile parseTmpl pre d post 0 e hpre hd]
  simp

/-- C9 witness: a configuration whose second definition is the empty map
aborts loading with entry index 1 and the `no matchers provided` text. -/
theorem compile_error_handling_witness :
    GetConfig compileStub parseStub
        [("process_names", .list [sshdDef, .map []])] =
      .error (.entry 1 .noMatchers) ∧
    (CfgError.entry 1 CfgError.noMatchers).render =
      "unable to parse process_name entry 1: no matchers provided" := by
  constructor
  · exact (compile_error_handling compileStub parseStub).2.1
      [sshdDef] (.map []) [] .noMatchers
      (by
        intro p hp
        rw [List.mem_singleton] at hp
        subst hp
        decide)
      ((compile_error_handling compileStub parseStub).1 [] rfl rfl)
  · rfl

/-! ## report_missing type-tolerance (C10) -/

/-- The value is a YAML boolean. -/
def isBoolVal : YamlValue → Bool
  | .bool _ => true
  | _ => false

/-- `getMatchNamer`'s entry loop skips every `report_missing` entry
without inspecting its value. -/
theorem buildSmap_skips_rm (nm : List (YamlValue × YamlValue))
    (smap : List (String × List String)) (t : String) :
    buildSmap nm smap t =
      buildSmap (nm.filter (fun e => ! keyIs "report_missing" e)) smap t := by
  induction nm generalizing smap t with
  | nil => rfl
  | cons e rest ih =>
    obtain ⟨k, v⟩ := e
    cases k with
    | str key =>
      by_cases hrm : key = "report_missing"
      · subst hrm
        rw [List.filter_cons_of_neg (by simp [keyIs])]
        simp only [buildSmap]
        rw [if_neg (by decide)]
        exact ih smap t
      · rw [List.filter_cons_of_pos (by simp [keyIs, hrm])]
        simp only [buildSmap]
        by_cases hname : key = "name"
        · rw [if_pos hname, if_pos hname]
          cases v with
          | str s => exact ih smap s
          | bool b => rfl
          | int n => rfl
          | list l => rfl
          | map m => rfl
        · rw [if_neg hname, if_neg hname, if_neg hrm, if_neg hrm]
          cases v with
          | list vals =>
            cases hdec : decodeStrList key vals 0 (yamlShow (.list vals)) with
            | error e2 => simp [hdec]
            | ok ss =>
              simp only [hdec]
              exact ih (smapInsert key ss smap) t
          | str s => rfl
          | bool b => rfl
          | int n => rfl
          | map m => rfl
    | bool b =>
      rw [List.filter_cons_of_pos (by simp [keyIs])]
      rfl
    | int n =>
      rw [List.filter_cons_of_pos (by simp [keyIs])]
      rfl
    | list l =>
      rw [List.filter_cons_of_pos (by simp [keyIs])]
      rfl
    | map m =>
      rw [List.filter_cons_of_pos (by simp [keyIs])]
      rfl

/-- A `report_missing` entry with a non-boolean value makes the first
scan of `getProcessNames` bail out (`return nil`). -/
theorem scanReportMissing_nonbool (pre post : List (YamlValue × YamlValue))
    (v : YamlValue)
    (hpreK : pre.all isStrKey = true)
    (hpreRM : pre.all (fun e => ! keyIs "report_missing" e) = true)
    (hv : isBoolVal v = false) :
    scanReportMissing (pre ++ (.str "report_missing", v) :: post) = none := by
  induction pre with
  | nil =>
    simp only [List.nil_append, scanReportMissing]
    rw [if_pos trivial]
    cases v with
    | bool b => simp [isBoolVal] at hv
    | str s => rfl
    | int n => rfl
    | list l => rfl
    | map m => rfl
  | cons e rest ih =>
    rw [List.all_cons, Bool.and_eq_true] at hpreK hpreRM
    obtain ⟨k, w⟩ := e
    cases k with
    | str key =>
      have hne : ¬ key = "report_missing" := by
        have := hpreRM.1
        simp [keyIs] at this
        exact this
      simp only [List.cons_append, scanReportMissing]
      rw [if_neg hne]
      exact ih hpreK.2 hpreRM.2
    | bool b => simp [isStrKey] at hpreK
    | int n => simp [isStrKey] at hpreK
    | list l => simp [isStrKey] at hpreK
    | map m => simp [isStrKey] at hpreK

/-- C10: a `report_missing` key with a non-boolean value does not fail
compilation — the compiler skips the key without a type check, so the
definition compiles exactly as if the key were absent — `GetConfig`
succeeds, and the definition contributes no static names because the
extractor returns nil on the failed boolean assertion. -/
theorem reportMissing_nonbool_tolerated
    (compile : String → Except String Regex)
    (parseTmpl : String → Except String Template)
    (pre post : List (YamlValue × YamlValue)) (v : YamlValue)
    (hpreK : pre.all isStrKey = true)
    (hpreRM : pre.all (fun e => ! keyIs "report_missing" e) = true)
    (hv : isBoolVal v = false) :
    (∀ nm : List (YamlValue × YamlValue),
      getMatchNamer compile parseTmpl (.map nm) =
        getMatchNamer compile parseTmpl
          (.map (nm.filter (fun e => ! keyIs "report_missing" e)))) ∧
    getProcessNames (.map (pre ++ (.str "report_missing", v) :: post)) = [] ∧
    ((GetConfig compileStub parseStub
        [("process_names",
          .list [.map [(.str "comm", .list [.str "bash"]),
                       (.str "report_missing", .str "yes")]])]).map
      (fun r => r.2)).toOption = some [] := by
  refine ⟨?_, ?_, by decide⟩
  · intro nm
    simp only [getMatchNamer]
    rw [← buildSmap_skips_rm]
  · simp only [getProcessNames]
    rw [scanReportMissing_nonbool pre post v hpreK hpreRM hv]

/-- C10 witness: `{comm: ["bash"], report_missing: "yes"}` contributes no
static names. -/
theorem reportMissing_nonbool_witness :
    getProcessNames (.map [(.str "comm", .list [.str "bash"]),
                           (.str "report_missing", .str "yes")]) = [] :=
  (reportMissing_nonbool_tolerated compileStub parseStub
      [(.str "comm", .list [.str "bash"])] [] (.str "yes")
      (by decide) (by decide) (by decide)).2.1

end ProcessExporter
